import Mathlib

/-!
Verification of the parameter-configuration subsystem of the nsb-pcm
repository (src/source/peclet_parameters.h).

The repository declares a fixed, dimension-parameterised schema of
configuration leaves to a section-scoped parameter store, overlays a
textual input file onto it, echoes the resolved store, and binds the
resolved string values into plain typed records (StructuredParameters).

The store/pattern machinery itself (deal.II's ParameterHandler and
Patterns, and the repository's my_parameter_handler.h) is not among the
given sources; those parts are modelled from the specification
(spec.md sections 4.1 through 4.6 and 7), as marked on each definition.
The schema declaration, the two entry points read_meta_parameters and
read, and the binding order are transcribed from peclet_parameters.h.

Modelling conventions:
* C++ double is modelled as an exact rational number.
* A textual input file is modelled as the list of key = value
  assignments it contains, each carrying its full section path.
* C++ fields that `read` never assigns (StructuredParameters.meta and
  Geometry.dim stay uninitialised in the C++) are modelled as Option
  fields holding none.
-/

/-- Decidable equality of Except results, needed to evaluate the read
entry points on concrete inputs. -/
instance exceptDecEq {ε α : Type} [DecidableEq ε] [DecidableEq α] :
    DecidableEq (Except ε α) := fun x y =>
  match x, y with
  | .error e1, .error e2 => decidable_of_iff (e1 = e2) (by simp)
  | .error _, .ok _ => isFalse (by simp)
  | .ok _, .error _ => isFalse (by simp)
  | .ok a, .ok b => decidable_of_iff (a = b) (by simp)

namespace Peclet
namespace Parameters

/-! ## Textual number parsing (modelled from the spec, section 4.1)

All text manipulation is done on character lists by structural
recursion, so that every definition evaluates inside the kernel. -/

/-- Whitespace characters ignored around values. -/
def isWs (c : Char) : Bool :=
  c = ' ' ∨ c = '\t' ∨ c = '\n' ∨ c = '\r'

/-- Drop surrounding whitespace from a character list. -/
def trimChars (cs : List Char) : List Char :=
  ((cs.dropWhile isWs).reverse.dropWhile isWs).reverse

/-- Split a character list on commas; n commas yield n+1 chunks. -/
def splitComma : List Char → List (List Char)
  | [] => [[]]
  | c :: rest =>
    if c = ',' then [] :: splitComma rest
    else
      match splitComma rest with
      | [] => [[c]]
      | t :: ts => (c :: t) :: ts

/-- Value of a digit string, most significant digit first. -/
def digitsVal (cs : List Char) : Nat :=
  cs.foldl (fun n c => 10 * n + (c.toNat - 48)) 0

/-- Modelled from the spec: a non-empty all-digit chunk parses as a
base-10 natural number, anything else is rejected. -/
def parseDigits (cs : List Char) : Option Nat :=
  if cs.isEmpty then none
  else if cs.all Char.isDigit then some (digitsVal cs) else none

/-- Strip one optional leading sign; returns (isNegative, rest). -/
def parseSign : List Char → Bool × List Char
  | '+' :: rest => (false, rest)
  | '-' :: rest => (true, rest)
  | cs => (false, cs)

/-- Modelled from the spec (RealRange / IntegerRange of section 4.1):
base-10 integer literal with optional sign, surrounding whitespace
ignored. -/
def parseIntChars (cs0 : List Char) : Option Int :=
  match parseSign (trimChars cs0) with
  | (neg, cs) =>
    (parseDigits cs).map (fun n => if neg then -(n : Int) else (n : Int))

/-- parseIntChars on the characters of a string. -/
def parseInteger (s : String) : Option Int :=
  parseIntChars s.data

/-- Split a character list at the first decimal point, if any. -/
def splitDot : List Char → List Char × Option (List Char)
  | [] => ([], none)
  | c :: rest =>
    if c = '.' then ([], some rest)
    else
      match splitDot rest with
      | (w, f) => (c :: w, f)

/-- Split a character list at the first exponent marker, if any. -/
def splitExp : List Char → List Char × Option (List Char)
  | [] => ([], none)
  | c :: rest =>
    if c = 'e' ∨ c = 'E' then ([], some rest)
    else
      match splitExp rest with
      | (m, e) => (c :: m, e)

/-- Parse an unsigned decimal mantissa, returning its digit value and
the number of fractional digits.  Accepts d+, d+., .d+ and d+.d+. -/
def parseMantissa (cs : List Char) : Option (Nat × Nat) :=
  match splitDot cs with
  | (whole, none) => (parseDigits whole).map (fun n => (n, 0))
  | (whole, some frac) =>
    if whole.isEmpty && frac.isEmpty then none
    else if whole.all Char.isDigit && frac.all Char.isDigit then
      some (digitsVal (whole ++ frac), frac.length)
    else none

/-- The rational value of a decimal literal: an optional minus sign, a
mantissa digit value and a power-of-ten shift.  Built with mkRat so
that it normalises by computation. -/
def decimalValue (neg : Bool) (m : Nat) (shift : Int) : ℚ :=
  let sm : Int := if neg then -(m : Int) else (m : Int)
  if 0 ≤ shift then mkRat (sm * ((10 : Int) ^ shift.toNat)) 1
  else mkRat sm ((10 : Nat) ^ (-shift).toNat)

/-- Modelled from the spec: a floating-point literal (optional sign,
decimal mantissa, optional e/E exponent), surrounding whitespace
ignored, valued as an exact rational. -/
def parseRealChars (cs0 : List Char) : Option ℚ :=
  match parseSign (trimChars cs0) with
  | (neg, cs) =>
    match splitExp cs with
    | (mcs, ecs) =>
      match parseMantissa mcs with
      | none => none
      | some (m, f) =>
        let expPart : Option Int :=
          match ecs with
          | none => some 0
          | some es =>
            match parseSign es with
            | (eneg, eds) =>
              (parseDigits eds).map
                (fun n => if eneg then -(n : Int) else (n : Int))
        match expPart with
        | none => none
        | some e =>
          some (decimalValue neg m (e - (f : Int)))

/-- parseRealChars on the characters of a string. -/
def parseReal (s : String) : Option ℚ :=
  parseRealChars s.data

/-- Map a fallible conversion over a list, failing if any element
fails. -/
def mapOption {α β : Type} (f : α → Option β) : List α → Option (List β)
  | [] => some []
  | x :: xs =>
    match f x, mapOption f xs with
    | some y, some ys => some (y :: ys)
    | _, _ => none

/-! ## Pattern validators (modelled from the spec, section 4.1) -/

/-- Modelled from the spec: the closed set of value-shape checks
attached to schema leaves (deal.II's Patterns classes are an external
dependency, not among the sources).  BoolPat is the boolean pattern. -/
inductive Pattern where
  | IntegerRange (lo hi : Option Int)
  | RealRange (lo hi : Option ℚ)
  | Selection (allowed : List String)
  | ListOf (elem : Pattern)
  | BoolPat
deriving DecidableEq

/-- Check optional integer bounds. -/
def intBoundsOk (lo hi : Option Int) (v : Int) : Bool :=
  (match lo with | some l => decide (l ≤ v) | none => true) &&
  (match hi with | some h => decide (v ≤ h) | none => true)

/-- Check optional rational bounds. -/
def ratBoundsOk (lo hi : Option ℚ) (v : ℚ) : Bool :=
  (match lo with | some l => decide (l ≤ v) | none => true) &&
  (match hi with | some h => decide (v ≤ h) | none => true)

/-- Modelled from the spec, section 4.1: pattern validation on the
characters of the value text.  List elements are split on commas;
whitespace around each element is absorbed by the element's own
trimming. -/
def validateChars : Pattern → List Char → Bool
  | .IntegerRange lo hi, cs =>
    match parseIntChars cs with
    | some v => intBoundsOk lo hi v
    | none => false
  | .RealRange lo hi, cs =>
    match parseRealChars cs with
    | some v => ratBoundsOk lo hi v
    | none => false
  | .Selection allowed, cs =>
    allowed.any (fun w => trimChars cs = w.data)
  | .ListOf p, cs => (splitComma cs).all (fun t => validateChars p t)
  | .BoolPat, cs => cs = "true".data || cs = "false".data

/-- Pattern validation of a string value. -/
def Pattern.validate (p : Pattern) (s : String) : Bool :=
  validateChars p s.data

/-! ## Schema entries and the section-scoped store
(modelled from the spec, sections 3, 4.2 and 4.3) -/

/-- Modelled from the spec: one declared leaf of the schema together
with its resolved store value.  `default` is the declared default text;
`value` is the currently resolved text (initially the default). -/
structure Entry where
  path : List String
  name : String
  pattern : Pattern
  default : String
  value : String
deriving DecidableEq

/-- One `key = value` line of an input file, with its section path. -/
structure Assignment where
  path : List String
  key : String
  value : String
deriving DecidableEq

/-- The section path and leaf name addressing an entry. -/
def entryKey (e : Entry) : List String × String := (e.path, e.name)

/-- The dimension-independent part of an entry (everything but the
resolved value). -/
def entryShape (e : Entry) : List String × String × Pattern × String :=
  (e.path, e.name, e.pattern, e.default)

/-- Schema declaration, transcribed entry by entry (paths, names,
patterns, defaults, order) from declare<dim> in peclet_parameters.h,
lines 126-327.  The three sub-scopes delegated to the external
Functions::ParsedFunction evaluator (source_function,
initial_values.parsed_function, verification.exact_solution_function)
are opaque to this system per spec section 4.7 and are omitted.
Every value starts out equal to its default. -/
def declare (dim : Nat) : List Entry :=
  [ ⟨["meta"], "dim",
      .IntegerRange (some 1) (some 3), toString dim, toString dim⟩,
    ⟨["geometry"], "grid_name",
      .Selection ["hyper_rectangle", "hyper_cube", "hyper_shell",
        "hemisphere_cylinder_shell", "cylinder",
        "cylinder_with_split_boundaries",
        "hyper_cube_with_cylindrical_hole"],
      "hyper_cube", "hyper_cube"⟩,
    ⟨["geometry"], "sizes",
      .ListOf (.RealRange (some 0) none), "0., 1.", "0., 1."⟩,
    ⟨["geometry"], "transformations",
      .ListOf (.RealRange none none), "0., 0., 0.", "0., 0., 0."⟩,
    ⟨["initial_values"], "function_name",
      .ListOf (.Selection ["parsed", "interpolate_old_field"]),
      "parsed", "parsed"⟩,
    ⟨["refinement"], "initial_global_cycles",
      .IntegerRange none none, "4", "4"⟩,
    ⟨["refinement"], "initial_boundary_cycles",
      .IntegerRange none none, "0", "0"⟩,
    ⟨["refinement"], "boundaries_to_refine",
      .ListOf (.IntegerRange none none), "0", "0"⟩,
    ⟨["refinement", "adaptive"], "initial_cycles",
      .IntegerRange none none, "0", "0"⟩,
    ⟨["refinement", "adaptive"], "interval",
      .IntegerRange none none, "0", "0"⟩,
    ⟨["refinement", "adaptive"], "max_level",
      .IntegerRange none none, "10", "10"⟩,
    ⟨["refinement", "adaptive"], "max_cells",
      .IntegerRange none none, "2000", "2000"⟩,
    ⟨["refinement", "adaptive"], "refine_fraction",
      .RealRange none none, "0.3", "0.3"⟩,
    ⟨["refinement", "adaptive"], "coarsen_fraction",
      .RealRange none none, "0.3", "0.3"⟩,
    ⟨["refinement", "adaptive"], "cycles_at_interval",
      .IntegerRange none none, "5", "5"⟩,
    ⟨["time"], "end_time",
      .RealRange (some 0) none, "1.", "1."⟩,
    ⟨["time"], "step_size",
      .RealRange (some 0) none, "0.", "0."⟩,
    ⟨["time"], "global_refinement_levels",
      .IntegerRange (some 0) none, "4", "4"⟩,
    ⟨["solver"], "method",
      .Selection ["GMRES"], "GMRES", "GMRES"⟩,
    ⟨["solver"], "max_iterations",
      .IntegerRange (some 0) none, "1000", "1000"⟩,
    ⟨["solver"], "tolerance",
      .RealRange (some 0) none, "1e-8", "1e-8"⟩,
    ⟨["solver"], "normalize_tolerance", .BoolPat, "false", "false"⟩,
    ⟨["output"], "write_solution_vtk", .BoolPat, "true", "true"⟩,
    ⟨["output"], "write_solution_table", .BoolPat, "false", "false"⟩,
    ⟨["output"], "time_step_interval",
      .IntegerRange (some 0) none, "1", "1"⟩,
    ⟨["verification"], "enabled", .BoolPat, "false", "false"⟩ ]

/-- Look up the entry at a section path and leaf name. -/
def findEntry (st : List Entry) (p : List String) (k : String) :
    Option Entry :=
  st.find? (fun e => decide (e.path = p ∧ e.name = k))

/-- The pattern declared at a section path and leaf name. -/
def findPattern (st : List Entry) (p : List String) (k : String) :
    Option Pattern :=
  (findEntry st p k).map Entry.pattern

/-- The declared default at a section path and leaf name. -/
def findDefault (st : List Entry) (p : List String) (k : String) :
    Option String :=
  (findEntry st p k).map Entry.default

/-- Overwrite an entry's value when the assignment addresses it. -/
def stepAsg (a : Assignment) (e : Entry) : Entry :=
  if e.path = a.path ∧ e.name = a.key then { e with value := a.value }
  else e

/-- Overlay one assignment's value onto every entry it addresses. -/
def setValue (st : List Entry) (a : Assignment) : List Entry :=
  st.map (stepAsg a)

/-- Modelled from the spec, section 7: the user-input error kinds the
overlay step can raise.  (MalformedInput and IOFailure concern the
textual grammar and the file system, which the assignment-list model
abstracts away.) -/
inductive InputError where
  | UnknownParameter (path : List String) (key : String)
  | InvalidValue (path : List String) (key : String) (value : String)
deriving DecidableEq

/-- Modelled from the spec, section 4.4: overlay a single assignment:
unknown path/key is an UnknownParameter error, an out-of-pattern value
is an InvalidValue error, otherwise the store is updated. -/
def overlay (st : List Entry) (a : Assignment) :
    Except InputError (List Entry) :=
  match findEntry st a.path a.key with
  | none => .error (.UnknownParameter a.path a.key)
  | some e =>
    if e.pattern.validate a.value then .ok (setValue st a)
    else .error (.InvalidValue a.path a.key a.value)

/-- Overlay a whole input, failing fast at the first bad assignment. -/
def readFold (st : List Entry) : List Assignment →
    Except InputError (List Entry)
  | [] => .ok st
  | a :: rest =>
    match overlay st a with
    | .ok st2 => readFold st2 rest
    | .error err => .error err

/-- The resolved store produced by declaring the schema at a given
dimension and overlaying the input, as performed by read (lines
359-367 of peclet_parameters.h). -/
def readStore (dim : Nat) (input : List Assignment) :
    Except InputError (List Entry) :=
  readFold (declare dim) input

/-- Modelled from the spec, section 4.6: the echo of a resolved store
is the list of key = value assignments for every leaf, in declaration
order, using the same grammar the reader accepts. -/
def echoAssignments (st : List Entry) : List Assignment :=
  st.map (fun e => ⟨e.path, e.name, e.value⟩)

/-! ## Typed extraction from the store
(getters modelled from the spec, section 4.5; the deal.II
ParameterHandler get family and my_parameter_handler.h are not among
the sources) -/

/-- The resolved string value at a section path and leaf name. -/
def getValue (st : List Entry) (p : List String) (k : String) :
    Option String :=
  (findEntry st p k).map Entry.value

/-- Modelled from the spec: get_integer converts the resolved string
back to an integer. -/
def get_integer (st : List Entry) (p : List String) (k : String) :
    Option Int :=
  (getValue st p k).bind parseInteger

/-- Modelled from the spec: get_double converts the resolved string
back to a real, modelled as an exact rational. -/
def get_double (st : List Entry) (p : List String) (k : String) :
    Option ℚ :=
  (getValue st p k).bind parseReal

/-- Modelled from the spec: get_bool converts the literal tokens true
and false. -/
def get_bool (st : List Entry) (p : List String) (k : String) :
    Option Bool :=
  (getValue st p k).bind
    (fun s => if s = "true" then some true
      else if s = "false" then some false else none)

/-- C++ conversion of a (long) integer to unsigned int: reduction
modulo 2^32. -/
def uintOfInt (i : Int) : Nat := (i % (2 ^ 32 : Int)).toNat

/-- C++ conversion of a (long) integer to int: two's-complement wrap
to the 32-bit signed range. -/
def intOfLong (i : Int) : Int :=
  (i + 2 ^ 31) % 2 ^ 32 - 2 ^ 31

/-- Modelled from the spec, section 4.5: MyParameterHandler::get_vector
over doubles (my_parameter_handler.h is not among the sources) — the
resolved string is split on commas exactly like the list validator and
each element is converted. -/
def get_vector_double (st : List Entry) (p : List String) (k : String) :
    Option (List ℚ) :=
  (getValue st p k).bind
    (fun s => mapOption parseRealChars (splitComma s.data))

/-- Modelled from the spec, section 4.5: MyParameterHandler::get_vector
over unsigned ints, same comma-splitting rule. -/
def get_vector_uint (st : List Entry) (p : List String) (k : String) :
    Option (List Nat) :=
  (getValue st p k).bind
    (fun s => (mapOption parseIntChars (splitComma s.data)).map
      (List.map uintOfInt))

/-! ## Domain records, transcribed from peclet_parameters.h lines 45-124 -/

/-- Transcribed from struct Meta (line 45). -/
structure Meta where
  dim : Nat
deriving DecidableEq

/-- Transcribed from struct InitialValues (line 55). -/
structure InitialValues where
  function_name : String
deriving DecidableEq

/-- Transcribed from struct Geometry (line 60).  The C++ member dim is
never assigned by read, so it is modelled as an Option left at none. -/
structure Geometry where
  dim : Option Nat
  grid_name : String
  sizes : List ℚ
  transformations : List ℚ
deriving DecidableEq

/-- Transcribed from struct AdaptiveRefinement (line 68). -/
structure AdaptiveRefinement where
  initial_cycles : Nat
  max_level : Nat
  max_cells : Nat
  interval : Nat
  cycles_at_interval : Nat
  refine_fraction : ℚ
  coarsen_fraction : ℚ
deriving DecidableEq

/-- Transcribed from struct Refinement (line 79). -/
structure Refinement where
  initial_global_cycles : Nat
  initial_boundary_cycles : Nat
  boundaries_to_refine : List Nat
  adaptive : AdaptiveRefinement
deriving DecidableEq

/-- Transcribed from struct Time (line 87); note that
global_refinement_levels is a double in the C++. -/
structure Time where
  end_time : ℚ
  step_size : ℚ
  global_refinement_levels : ℚ
deriving DecidableEq

/-- Transcribed from struct IterativeSolver (line 94). -/
structure IterativeSolver where
  method : String
  max_iterations : Nat
  tolerance : ℚ
  normalize_tolerance : Bool
deriving DecidableEq

/-- Transcribed from struct Output (line 102); time_step_interval is a
signed int in the C++. -/
structure Output where
  write_solution_vtk : Bool
  write_solution_table : Bool
  time_step_interval : Int
deriving DecidableEq

/-- Transcribed from struct Verification (line 109). -/
structure Verification where
  enabled : Bool
deriving DecidableEq

/-- Transcribed from struct StructuredParameters (line 114).  The C++
member meta is never assigned by read, so it is modelled as an Option
left at none. -/
structure StructuredParameters where
  meta : Option Meta
  initial_values : InitialValues
  geometry : Geometry
  refinement : Refinement
  time : Time
  solver : IterativeSolver
  output : Output
  verification : Verification
deriving DecidableEq

/-- Extraction of the geometry record, transcribed from read
(peclet_parameters.h lines 374-381).  The C++ member Geometry.dim is
never assigned there, hence none. -/
def bindGeometry (st : List Entry) : Option Geometry := do
  let grid_name ← getValue st ["geometry"] "grid_name"
  let sizes ← get_vector_double st ["geometry"] "sizes"
  let transformations ← get_vector_double st ["geometry"] "transformations"
  some { dim := none, grid_name := grid_name, sizes := sizes,
         transformations := transformations }

/-- Extraction of the verification record, transcribed from read
(lines 391-401). -/
def bindVerification (st : List Entry) : Option Verification := do
  let enabled ← get_bool st ["verification"] "enabled"
  some { enabled := enabled }

/-- Extraction of the initial-values record, transcribed from read
(lines 404-415). -/
def bindInitialValues (st : List Entry) : Option InitialValues := do
  let function_name ← getValue st ["initial_values"] "function_name"
  some { function_name := function_name }

/-- Extraction of the adaptive-refinement record, transcribed from
read (lines 426-435), with the C++ long-to-unsigned narrowing. -/
def bindAdaptive (st : List Entry) : Option AdaptiveRefinement := do
  let initial_cycles ←
    get_integer st ["refinement", "adaptive"] "initial_cycles"
  let max_level ← get_integer st ["refinement", "adaptive"] "max_level"
  let max_cells ← get_integer st ["refinement", "adaptive"] "max_cells"
  let interval ← get_integer st ["refinement", "adaptive"] "interval"
  let cycles_at_interval ←
    get_integer st ["refinement", "adaptive"] "cycles_at_interval"
  let refine_fraction ←
    get_double st ["refinement", "adaptive"] "refine_fraction"
  let coarsen_fraction ←
    get_double st ["refinement", "adaptive"] "coarsen_fraction"
  some { initial_cycles := uintOfInt initial_cycles
         max_level := uintOfInt max_level
         max_cells := uintOfInt max_cells
         interval := uintOfInt interval
         cycles_at_interval := uintOfInt cycles_at_interval
         refine_fraction := refine_fraction
         coarsen_fraction := coarsen_fraction }

/-- Extraction of the refinement record, transcribed from read
(lines 418-440). -/
def bindRefinement (st : List Entry) : Option Refinement := do
  let initial_global_cycles ←
    get_integer st ["refinement"] "initial_global_cycles"
  let initial_boundary_cycles ←
    get_integer st ["refinement"] "initial_boundary_cycles"
  let boundaries_to_refine ←
    get_vector_uint st ["refinement"] "boundaries_to_refine"
  let adaptive ← bindAdaptive st
  some { initial_global_cycles := uintOfInt initial_global_cycles
         initial_boundary_cycles := uintOfInt initial_boundary_cycles
         boundaries_to_refine := boundaries_to_refine
         adaptive := adaptive }

/-- Extraction of the time record, transcribed from read (lines
443-450); global_refinement_levels is read with get_integer and stored
in a double-typed field. -/
def bindTime (st : List Entry) : Option Time := do
  let end_time ← get_double st ["time"] "end_time"
  let step_size ← get_double st ["time"] "step_size"
  let global_refinement_levels ←
    get_integer st ["time"] "global_refinement_levels"
  some { end_time := end_time, step_size := step_size,
         global_refinement_levels := (global_refinement_levels : ℚ) }

/-- Extraction of the solver record, transcribed from read (lines
453-460). -/
def bindSolver (st : List Entry) : Option IterativeSolver := do
  let method ← getValue st ["solver"] "method"
  let max_iterations ← get_integer st ["solver"] "max_iterations"
  let tolerance ← get_double st ["solver"] "tolerance"
  let normalize_tolerance ← get_bool st ["solver"] "normalize_tolerance"
  some { method := method, max_iterations := uintOfInt max_iterations,
         tolerance := tolerance,
         normalize_tolerance := normalize_tolerance }

/-- Extraction of the output record, transcribed from read (lines
462-468), with the C++ long-to-int narrowing. -/
def bindOutput (st : List Entry) : Option Output := do
  let write_solution_vtk ← get_bool st ["output"] "write_solution_vtk"
  let write_solution_table ← get_bool st ["output"] "write_solution_table"
  let time_step_interval ← get_integer st ["output"] "time_step_interval"
  some { write_solution_vtk := write_solution_vtk
         write_solution_table := write_solution_table
         time_step_interval := intOfLong time_step_interval }

/-- Typed binding of the resolved store, transcribed from the
extraction sequence of read (peclet_parameters.h lines 374-468).  All
extractions are pure reads of distinct store leaves, grouped here per
record.  The C++ member meta is never assigned by read, hence none. -/
def bindParams (st : List Entry) : Option StructuredParameters := do
  let geometry ← bindGeometry st
  let verification ← bindVerification st
  let initial_values ← bindInitialValues st
  let refinement ← bindRefinement st
  let time ← bindTime st
  let solver ← bindSolver st
  let output ← bindOutput st
  some { meta := none, initial_values := initial_values,
         geometry := geometry, refinement := refinement, time := time,
         solver := solver, output := output,
         verification := verification }

/-- The read entry point, transcribed from read<dim>
(peclet_parameters.h lines 351-471): declare the schema, overlay the
input (aborting on the first input error), then bind the typed
records.  An input error yields no records at all; a failed conversion
during binding is the none case. -/
def read (dim : Nat) (input : List Assignment) :
    Except InputError (Option StructuredParameters) :=
  (readStore dim input).map bindParams

/-- The readMeta entry point, transcribed from read_meta_parameters
(peclet_parameters.h lines 330-349): the schema is declared with
dimension 1 unconditionally, the input is overlaid, and meta.dim is
extracted with get_integer (narrowed to unsigned int). -/
def read_meta_parameters (input : List Assignment) :
    Except InputError (Option Meta) :=
  (readFold (declare 1) input).map
    (fun st => (get_integer st ["meta"] "dim").map
      (fun i => { dim := uintOfInt i }))

/-! ## Observable event order of read (for the temporal claim) -/

/-- The externally observable steps of read after a successful
overlay: the echo write, then each field extraction. -/
inductive Event where
  | echoWrite
  | extract (path : List String) (key : String)
deriving DecidableEq

/-- The extraction events of read, in the source order of
peclet_parameters.h lines 374-468. -/
def extractionOrder : List Event :=
  [ .extract ["geometry"] "grid_name",
    .extract ["geometry"] "sizes",
    .extract ["geometry"] "transformations",
    .extract ["verification"] "enabled",
    .extract ["initial_values"] "function_name",
    .extract ["refinement"] "initial_global_cycles",
    .extract ["refinement"] "initial_boundary_cycles",
    .extract ["refinement"] "boundaries_to_refine",
    .extract ["refinement", "adaptive"] "initial_cycles",
    .extract ["refinement", "adaptive"] "max_level",
    .extract ["refinement", "adaptive"] "max_cells",
    .extract ["refinement", "adaptive"] "interval",
    .extract ["refinement", "adaptive"] "cycles_at_interval",
    .extract ["refinement", "adaptive"] "refine_fraction",
    .extract ["refinement", "adaptive"] "coarsen_fraction",
    .extract ["time"] "end_time",
    .extract ["time"] "step_size",
    .extract ["time"] "global_refinement_levels",
    .extract ["solver"] "method",
    .extract ["solver"] "max_iterations",
    .extract ["solver"] "tolerance",
    .extract ["solver"] "normalize_tolerance",
    .extract ["output"] "write_solution_vtk",
    .extract ["output"] "write_solution_table",
    .extract ["output"] "time_step_interval" ]

/-- The event trace of one call to read, transcribed from the
statement order of read (peclet_parameters.h lines 364-468): after a
successful overlay the echo file used_parameters.prm is written (lines
369-372), and only then are the record fields extracted (lines
374-468).  A failed overlay aborts before any of these steps. -/
def readTrace (dim : Nat) (input : List Assignment) : List Event :=
  match readStore dim input with
  | .error _ => []
  | .ok _ => Event.echoWrite :: extractionOrder

/-! ## Derived notions used by the verification -/

/-- The shapes (path, name, pattern, default) of a store's entries. -/
def storeShape (st : List Entry) :
    List (List String × String × Pattern × String) :=
  st.map entryShape

/-- The keys (path, name) of a store's entries. -/
def storeKeys (st : List Entry) : List (List String × String) :=
  st.map entryKey

/-- An assignment the reader must reject against a given store: its
key is undeclared, or its value fails the declared pattern. -/
def isBad (st : List Entry) (a : Assignment) : Bool :=
  match findPattern st a.path a.key with
  | none => true
  | some pat => ! pat.validate a.value

/-- Every resolved value in the store satisfies its own pattern. -/
@[reducible]
def allValidValues (st : List Entry) : Prop :=
  ∀ e ∈ st, e.pattern.validate e.value = true

/-- Every declared default satisfies its own pattern, as a boolean. -/
def defaultsValid (st : List Entry) : Bool :=
  st.all (fun e => e.pattern.validate e.default)

/-- The pattern declared for initial_values.function_name
(peclet_parameters.h lines 194-195): a comma-separated list of
selections, not a bare selection. -/
def function_name_pattern : Pattern :=
  .ListOf (.Selection ["parsed", "interpolate_old_field"])

/-- Applying a list of assignments to a store unconditionally. -/
def applyAll (st : List Entry) (asgs : List Assignment) : List Entry :=
  asgs.foldl setValue st

/-- Folding the assignment steps over a single entry. -/
def applyToEntry (e : Entry) (asgs : List Assignment) : Entry :=
  asgs.foldl (fun x a => stepAsg a x) e

/-- A sample overlay input used to witness the round-trip theorem. -/
def sampleInput : List Assignment :=
  [⟨["time"], "end_time", "2.5"⟩,
   ⟨["geometry"], "grid_name", "hyper_shell"⟩]

/-- The resolved store of the sample overlay input at dimension 2. -/
def sampleStore : List Entry :=
  match readStore 2 sampleInput with
  | .ok st => st
  | .error _ => []

/-! ## Basic store lemmas -/

theorem storeShape_cons (f : Entry) (t : List Entry) :
    storeShape (f :: t) = entryShape f :: storeShape t := rfl

theorem storeKeys_cons (f : Entry) (t : List Entry) :
    storeKeys (f :: t) = entryKey f :: storeKeys t := rfl

theorem echoAssignments_cons (f : Entry) (t : List Entry) :
    echoAssignments (f :: t) =
      ⟨f.path, f.name, f.value⟩ :: echoAssignments t := rfl

theorem applyToEntry_nil (e : Entry) : applyToEntry e [] = e := rfl

theorem applyToEntry_cons (e : Entry) (a : Assignment)
    (asgs : List Assignment) :
    applyToEntry e (a :: asgs) = applyToEntry (stepAsg a e) asgs := rfl

theorem path_of_shape {a b : Entry} (h : entryShape a = entryShape b) :
    a.path = b.path := congrArg (fun q => q.1) h

theorem name_of_shape {a b : Entry} (h : entryShape a = entryShape b) :
    a.name = b.name := congrArg (fun q => q.2.1) h

theorem pattern_of_shape {a b : Entry} (h : entryShape a = entryShape b) :
    a.pattern = b.pattern := congrArg (fun q => q.2.2.1) h

theorem default_of_shape {a b : Entry} (h : entryShape a = entryShape b) :
    a.default = b.default := congrArg (fun q => q.2.2.2) h

theorem entry_eq_of_shape_value {a b : Entry}
    (hs : entryShape a = entryShape b) (hv : a.value = b.value) :
    a = b := by
  have hp := path_of_shape hs
  have hn := name_of_shape hs
  have hpat := pattern_of_shape hs
  have hd := default_of_shape hs
  cases a
  cases b
  simp_all

theorem entryShape_stepAsg (a : Assignment) (e : Entry) :
    entryShape (stepAsg a e) = entryShape e := by
  unfold stepAsg
  split <;> rfl

theorem storeShape_setValue (st : List Entry) (a : Assignment) :
    storeShape (setValue st a) = storeShape st := by
  induction st with
  | nil => rfl
  | cons e t ih =>
    simp only [setValue, List.map_cons, storeShape_cons] at ih ⊢
    rw [entryShape_stepAsg]
    exact congrArg _ ih

theorem storeKeys_eq_map_shape (st : List Entry) :
    storeKeys st = (storeShape st).map (fun q => (q.1, q.2.1)) := by
  unfold storeKeys storeShape
  rw [List.map_map]
  rfl

theorem storeKeys_eq_of_shape {s t : List Entry}
    (h : storeShape s = storeShape t) : storeKeys s = storeKeys t := by
  rw [storeKeys_eq_map_shape, storeKeys_eq_map_shape, h]

/-! ## Overlay lemmas -/

theorem overlay_ok_elim {st st2 : List Entry} {a : Assignment}
    (h : overlay st a = .ok st2) :
    ∃ e, findEntry st a.path a.key = some e ∧
      e.pattern.validate a.value = true ∧ st2 = setValue st a := by
  unfold overlay at h
  cases hf : findEntry st a.path a.key with
  | none => rw [hf] at h; exact absurd h (by simp)
  | some e =>
    rw [hf] at h
    by_cases hv : e.pattern.validate a.value = true
    · simp only [hv, if_true] at h
      exact ⟨e, rfl, hv, (Except.ok.injEq _ _ ▸ h).symm⟩
    · simp [hv] at h

theorem storeShape_overlay {st st2 : List Entry} {a : Assignment}
    (h : overlay st a = .ok st2) : storeShape st2 = storeShape st := by
  obtain ⟨e, _, _, rfl⟩ := overlay_ok_elim h
  exact storeShape_setValue st a

theorem storeShape_readFold :
    ∀ (input : List Assignment) (st st2 : List Entry),
      readFold st input = .ok st2 → storeShape st2 = storeShape st
  | [], st, st2, h => by
    unfold readFold at h
    rw [Except.ok.inj h]
  | a :: rest, st, st2, h => by
    unfold readFold at h
    cases ho : overlay st a with
    | error err => rw [ho] at h; exact absurd h (by simp)
    | ok st1 =>
      rw [ho] at h
      rw [storeShape_readFold rest st1 st2 h, storeShape_overlay ho]

/-! ## Lookup under unique keys -/

theorem findEntry_eq_of_mem_nodup :
    ∀ {st : List Entry}, (storeKeys st).Nodup →
      ∀ {e : Entry} {p : List String} {k : String}, e ∈ st →
        e.path = p → e.name = k → findEntry st p k = some e := by
  intro st
  induction st with
  | nil => intro _ e p k he; exact absurd he (List.not_mem_nil e)
  | cons f t ih =>
    intro hnd e p k he hp hk
    rw [storeKeys_cons] at hnd
    obtain ⟨hfk, hndt⟩ := List.nodup_cons.mp hnd
    rcases List.mem_cons.mp he with rfl | het
    · unfold findEntry
      rw [List.find?_cons_of_pos]
      simp [hp, hk]
    · have hfneg : ¬(f.path = p ∧ f.name = k) := by
        rintro ⟨h1, h2⟩
        apply hfk
        have : entryKey f = entryKey e := by
          unfold entryKey; rw [h1, h2, hp, hk]
        rw [this]
        exact List.mem_map_of_mem entryKey het
      unfold findEntry
      rw [List.find?_cons_of_neg]
      · exact ih hndt het hp hk
      · simpa using hfneg

/-! ## Bad assignments are rejected -/

theorem findPattern_eq_of_shape :
    ∀ (s t : List Entry), storeShape s = storeShape t →
      ∀ (p : List String) (k : String),
        findPattern s p k = findPattern t p k
  | [], t, h, p, k => by
    have : t = [] := by
      have := h.symm
      rw [show storeShape ([] : List Entry) = [] from rfl] at this
      exact List.map_eq_nil_iff.mp this
    rw [this]
  | e :: s', t, h, p, k => by
    cases t with
    | nil => exact absurd h (by simp [storeShape_cons, storeShape])
    | cons f t' =>
      rw [storeShape_cons, storeShape_cons, List.cons.injEq] at h
      obtain ⟨hef, hst⟩ := h
      unfold findPattern findEntry
      by_cases hc : e.path = p ∧ e.name = k
      · rw [List.find?_cons_of_pos _ (by simpa using hc),
          List.find?_cons_of_pos _ (by
            simp only [decide_eq_true_eq]
            exact ⟨(path_of_shape hef).symm.trans hc.1,
              (name_of_shape hef).symm.trans hc.2⟩)]
        simp [pattern_of_shape hef]
      · rw [List.find?_cons_of_neg _ (by simpa using hc),
          List.find?_cons_of_neg _ (by
            simp only [decide_eq_true_eq]
            rintro ⟨h1, h2⟩
            exact hc ⟨(path_of_shape hef).trans h1,
              (name_of_shape hef).trans h2⟩)]
        exact findPattern_eq_of_shape s' t' hst p k

theorem isBad_eq_of_shape {s t : List Entry} {a : Assignment}
    (h : storeShape s = storeShape t) : isBad s a = isBad t a := by
  unfold isBad
  rw [findPattern_eq_of_shape s t h a.path a.key]

theorem isBad_false_of_overlay_ok {st st2 : List Entry} {a : Assignment}
    (h : overlay st a = .ok st2) : isBad st a = false := by
  obtain ⟨e, hf, hv, _⟩ := overlay_ok_elim h
  unfold isBad findPattern
  rw [hf]
  simp [hv]

theorem overlay_error_of_isBad {st : List Entry} {a : Assignment}
    (h : isBad st a = true) : ∃ err, overlay st a = .error err := by
  cases ho : overlay st a with
  | error err => exact ⟨err, rfl⟩
  | ok st2 =>
    rw [isBad_false_of_overlay_ok ho] at h
    exact absurd h (by simp)

theorem readFold_error_of_bad :
    ∀ (input : List Assignment) (st : List Entry),
      (∃ a ∈ input, isBad st a = true) →
      ∃ err, readFold st input = .error err
  | [], _, h => absurd h (by simp)
  | a :: rest, st, h => by
    unfold readFold
    cases ho : overlay st a with
    | error err => exact ⟨err, rfl⟩
    | ok st1 =>
      obtain ⟨b, hb, hbad⟩ := h
      rcases List.mem_cons.mp hb with rfl | hbrest
      · rw [isBad_false_of_overlay_ok ho] at hbad
        exact absurd hbad (by simp)
      · have hbad1 : isBad st1 b = true := by
          rw [isBad_eq_of_shape (storeShape_overlay ho)]
          exact hbad
        exact readFold_error_of_bad rest st1 ⟨b, hbrest, hbad1⟩

/-! ## Valid values are preserved by the overlay -/

theorem allValid_setValue {st : List Entry} {a : Assignment} {e : Entry}
    (hnd : (storeKeys st).Nodup) (hall : allValidValues st)
    (hfind : findEntry st a.path a.key = some e)
    (hv : e.pattern.validate a.value = true) :
    allValidValues (setValue st a) := by
  intro e2 he2
  obtain ⟨e1, he1, rfl⟩ := List.mem_map.mp he2
  unfold stepAsg
  split
  · next hcond =>
    have h1 : findEntry st a.path a.key = some e1 :=
      findEntry_eq_of_mem_nodup hnd he1 hcond.1 hcond.2
    rw [hfind] at h1
    obtain rfl := Option.some.inj h1
    simpa using hv
  · exact hall e1 he1

theorem allValid_readFold :
    ∀ (input : List Assignment) (st st2 : List Entry),
      (storeKeys st).Nodup → allValidValues st →
      readFold st input = .ok st2 → allValidValues st2
  | [], st, st2, _, hall, h => by
    unfold readFold at h
    rw [← Except.ok.inj h]
    exact hall
  | a :: rest, st, st2, hnd, hall, h => by
    unfold readFold at h
    cases ho : overlay st a with
    | error err => rw [ho] at h; exact absurd h (by simp)
    | ok st1 =>
      rw [ho] at h
      obtain ⟨e, hfind, hv, rfl⟩ := overlay_ok_elim ho
      have hnd1 : (storeKeys (setValue st a)).Nodup := by
        rw [storeKeys_eq_of_shape (storeShape_setValue st a)]
        exact hnd
      exact allValid_readFold rest _ st2 hnd1
        (allValid_setValue hnd hall hfind hv) h

/-! ## A fold of valid targeted assignments succeeds -/

theorem readFold_ok_of_targets :
    ∀ (asgs : List Assignment) (st : List Entry),
      (storeKeys st).Nodup →
      (∀ a ∈ asgs, ∃ e ∈ st, e.path = a.path ∧ e.name = a.key ∧
          e.pattern.validate a.value = true) →
      readFold st asgs = .ok (applyAll st asgs)
  | [], _, _, _ => rfl
  | a :: rest, st, hnd, h => by
    obtain ⟨e, he, hp, hn, hv⟩ := h a (by simp)
    have hfind : findEntry st a.path a.key = some e :=
      findEntry_eq_of_mem_nodup hnd he hp hn
    have hov : overlay st a = .ok (setValue st a) := by
      unfold overlay
      rw [hfind]
      simp [hv]
    have hunf : readFold st (a :: rest) =
        match overlay st a with
        | Except.ok st2 => readFold st2 rest
        | Except.error err => Except.error err := rfl
    have hstep : readFold st (a :: rest) = readFold (setValue st a) rest := by
      rw [hunf, hov]
    rw [hstep]
    have hnd1 : (storeKeys (setValue st a)).Nodup := by
      rw [storeKeys_eq_of_shape (storeShape_setValue st a)]
      exact hnd
    have h1 : ∀ b ∈ rest, ∃ e2 ∈ setValue st a,
        e2.path = b.path ∧ e2.name = b.key ∧
        e2.pattern.validate b.value = true := by
      intro b hb
      obtain ⟨e2, he2, hp2, hn2, hv2⟩ := h b (by simp [hb])
      have hs := entryShape_stepAsg a e2
      refine ⟨stepAsg a e2, List.mem_map_of_mem _ he2, ?_, ?_, ?_⟩
      · rw [path_of_shape hs]; exact hp2
      · rw [name_of_shape hs]; exact hn2
      · rw [pattern_of_shape hs]; exact hv2
    rw [readFold_ok_of_targets rest (setValue st a) hnd1 h1]
    rfl

/-! ## The pure fold acts entrywise -/

theorem applyAll_eq_map :
    ∀ (asgs : List Assignment) (st : List Entry),
      applyAll st asgs = st.map (fun e => applyToEntry e asgs)
  | [], st => by
    unfold applyAll applyToEntry
    simp
  | a :: rest, st => by
    unfold applyAll
    rw [List.foldl_cons]
    have := applyAll_eq_map rest (setValue st a)
    unfold applyAll at this
    rw [this]
    unfold setValue
    rw [List.map_map]
    rfl

theorem applyToEntry_echo_of_not_mem :
    ∀ (l : List Entry) (e : Entry), entryKey e ∉ storeKeys l →
      applyToEntry e (echoAssignments l) = e
  | [], _, _ => rfl
  | f :: t, e, h => by
    rw [storeKeys_cons] at h
    have hne : ¬(e.path = f.path ∧ e.name = f.name) := by
      rintro ⟨h1, h2⟩
      apply h
      have : entryKey e = entryKey f := by
        unfold entryKey; rw [h1, h2]
      rw [this]
      exact List.mem_cons_self _ _
    have hstep : stepAsg ⟨f.path, f.name, f.value⟩ e = e := by
      unfold stepAsg
      rw [if_neg hne]
    rw [echoAssignments_cons, applyToEntry_cons, hstep]
    exact applyToEntry_echo_of_not_mem t e
      (fun hm => h (List.mem_cons_of_mem _ hm))

theorem applyToEntry_echo_of_mem :
    ∀ (l : List Entry), (storeKeys l).Nodup →
      ∀ {e0 e1 : Entry}, e1 ∈ l → entryShape e0 = entryShape e1 →
        applyToEntry e0 (echoAssignments l) = e1
  | [], _, e0, e1, h, _ => absurd h (List.not_mem_nil e1)
  | f :: t, hnd, e0, e1, hmem, hsh => by
    rw [storeKeys_cons] at hnd
    obtain ⟨hfk, hndt⟩ := List.nodup_cons.mp hnd
    rw [echoAssignments_cons, applyToEntry_cons]
    rcases List.mem_cons.mp hmem with he1f | hmt
    · have hshf : entryShape e0 = entryShape f := by rw [hsh, he1f]
      have hcond : e0.path = f.path ∧ e0.name = f.name :=
        ⟨path_of_shape hshf, name_of_shape hshf⟩
      have hstep : stepAsg ⟨f.path, f.name, f.value⟩ e0 = f := by
        unfold stepAsg
        rw [if_pos hcond]
        exact entry_eq_of_shape_value hshf rfl
      rw [hstep, he1f]
      exact applyToEntry_echo_of_not_mem t f hfk
    · have hkey1 : entryKey e1 ∈ storeKeys t :=
        List.mem_map_of_mem entryKey hmt
      have hne : ¬(e0.path = f.path ∧ e0.name = f.name) := by
        rintro ⟨h1, h2⟩
        apply hfk
        have : entryKey f = entryKey e1 := by
          unfold entryKey
          rw [← h1, ← h2, path_of_shape hsh, name_of_shape hsh]
        rw [this]
        exact hkey1
      have hstep : stepAsg ⟨f.path, f.name, f.value⟩ e0 = e0 := by
        unfold stepAsg
        rw [if_neg hne]
      rw [hstep]
      exact applyToEntry_echo_of_mem t hndt hmt hsh

theorem mem_of_shape {s t : List Entry}
    (h : storeShape s = storeShape t) {e : Entry} (he : e ∈ t) :
    ∃ f ∈ s, entryShape f = entryShape e := by
  have hmem : entryShape e ∈ storeShape s := by
    rw [h]
    exact List.mem_map_of_mem entryShape he
  exact List.mem_map.mp hmem

theorem map_applyToEntry_echo {s t : List Entry}
    (hsh : storeShape s = storeShape t) (hnd : (storeKeys t).Nodup) :
    s.map (fun e => applyToEntry e (echoAssignments t)) = t := by
  have hlen : s.length = t.length := by
    have := congrArg List.length hsh
    simpa [storeShape] using this
  apply List.ext_get
  · rw [List.length_map]; exact hlen
  · intro n h1 h2
    have hn1 : n < s.length := by simpa using h1
    have hq := congrArg (fun l => l[n]?) hsh
    simp only [storeShape, List.getElem?_map] at hq
    rw [List.getElem?_eq_getElem hn1, List.getElem?_eq_getElem h2] at hq
    simp only [Option.map_some'] at hq
    have hsg := Option.some.inj hq
    simp only [List.get_eq_getElem, List.getElem_map]
    exact applyToEntry_echo_of_mem t hnd (List.getElem_mem h2) hsg

/-! ## Validated list elements always parse -/

theorem parseReal_isSome_of_validate {lo hi : Option ℚ} {t : List Char}
    (h : validateChars (.RealRange lo hi) t = true) :
    (parseRealChars t).isSome = true := by
  unfold validateChars at h
  cases hp : parseRealChars t with
  | none => rw [hp] at h; simp at h
  | some v => rfl

theorem parseInt_isSome_of_validate {lo hi : Option Int} {t : List Char}
    (h : validateChars (.IntegerRange lo hi) t = true) :
    (parseIntChars t).isSome = true := by
  unfold validateChars at h
  cases hp : parseIntChars t with
  | none => rw [hp] at h; simp at h
  | some v => rfl

theorem mapOption_isSome {α β : Type} (f : α → Option β) :
    ∀ (l : List α), (∀ x ∈ l, (f x).isSome = true) →
      ∃ ys, mapOption f l = some ys
  | [], _ => ⟨[], rfl⟩
  | x :: xs, h => by
    obtain ⟨y, hy⟩ := Option.isSome_iff_exists.mp (h x (by simp))
    obtain ⟨ys, hys⟩ :=
      mapOption_isSome f xs (fun z hz => h z (by simp [hz]))
    exact ⟨y :: ys, by simp [mapOption, hy, hys]⟩

/-! ## The claims -/

/-- Claim C8: every declare_entry call executed by the declaration
routine declare<dim> with dim in 1..3 declares a default string that
satisfies its own declared pattern, so no SchemaViolation can occur at
startup. -/
theorem declared_defaults_satisfy_patterns (dim : Nat)
    (h : dim = 1 ∨ dim = 2 ∨ dim = 3) :
    defaultsValid (declare dim) = true := by
  rcases h with rfl | rfl | rfl <;> decide

/-- Witness for declared_defaults_satisfy_patterns at dimension 2. -/
theorem declared_defaults_satisfy_patterns_witness :
    defaultsValid (declare 2) = true :=
  declared_defaults_satisfy_patterns 2 (Or.inr (Or.inl rfl))

/-- Claim C1 (code-bug evidence): with an empty input the resolved
Store holds exactly the declared defaults, and the bound record fields
equal those defaults converted to their natural types — but read never
assigns the Meta record (nor Geometry.dim), so the returned
StructuredParameters has meta = none rather than the declared default
dimension. -/
theorem read_empty_input_defaults_meta_unset :
    readStore 2 [] = .ok (declare 2) ∧
    (declare 2).all (fun e => e.value = e.default) = true ∧
    (read 2 []).map (Option.map (fun p =>
        (p.meta, p.geometry.dim, p.geometry.grid_name))) =
      .ok (some (none, none, "hyper_cube")) ∧
    (read 2 []).map (Option.map (fun p =>
        (p.refinement.initial_global_cycles, p.solver.tolerance,
         p.time.end_time))) =
      .ok (some (4, mkRat 1 100000000, 1)) :=
  ⟨rfl, by decide, by decide, by decide⟩

/-- Claim C2 (counterexample): read_meta_parameters instantiates the
schema at dimension 1 unconditionally, so with no input it returns
dim = 1 even for a build at dimension 2, whose own schema declares the
default "2" for meta.dim. -/
theorem read_meta_ignores_build_dimension :
    read_meta_parameters [] = .ok (some ⟨1⟩) ∧
    findDefault (declare 2) ["meta"] "dim" = some "2" ∧
    (1 : Nat) ≠ 2 := by decide

/-- Claim C2 (amended): read_meta_parameters with no input returns
dimension 1 (its schema is always declared at dimension 1); an input
with meta.dim = 2 returns 2; an input with meta.dim = 5 fails with
InvalidValue because the pattern bounds dim to the range 1..3. -/
theorem read_meta_dim_behaviour :
    read_meta_parameters [] = .ok (some ⟨1⟩) ∧
    read_meta_parameters [⟨["meta"], "dim", "2"⟩] = .ok (some ⟨2⟩) ∧
    read_meta_parameters [⟨["meta"], "dim", "5"⟩] =
      .error (.InvalidValue ["meta"] "dim" "5") := by decide

/-- Claim C3: any input containing an assignment whose key is not
declared, or whose value fails the declared pattern, makes read fail
with an input error (UnknownParameter or InvalidValue are the only
error kinds), so no Domain Record is returned to the caller. -/
theorem read_rejects_invalid_input (dim : Nat) (input : List Assignment)
    (h : ∃ a ∈ input, isBad (declare dim) a = true) :
    ∃ err, read dim input = .error err := by
  obtain ⟨err, he⟩ := readFold_error_of_bad input (declare dim) h
  refine ⟨err, ?_⟩
  unfold read readStore
  rw [he]
  rfl

/-- Witness for read_rejects_invalid_input: geometry.grid_name set to
a value outside the declared selection. -/
theorem read_rejects_invalid_input_witness :
    ∃ err, read 2 [⟨["geometry"], "grid_name", "not_a_shape"⟩] =
      .error err :=
  read_rejects_invalid_input 2 _
    ⟨⟨["geometry"], "grid_name", "not_a_shape"⟩, by decide, by decide⟩

/-- Claim C4: for any overlay input accepted by read, overlaying the
echoed assignments of the resolved store onto a fresh schema
reproduces the same resolved store, hence binding after reading the
echo yields the same Domain Records as binding after reading the
original input. -/
theorem read_echo_round_trip (dim : Nat) (input : List Assignment)
    (st : List Entry) (hdim : dim = 1 ∨ dim = 2 ∨ dim = 3)
    (h : readStore dim input = .ok st) :
    readStore dim (echoAssignments st) = .ok st ∧
      read dim (echoAssignments st) = read dim input := by
  have hnd0 : (storeKeys (declare dim)).Nodup := by
    rcases hdim with rfl | rfl | rfl <;> decide
  have hall0 : allValidValues (declare dim) := by
    rcases hdim with rfl | rfl | rfl <;> decide
  have hsh : storeShape st = storeShape (declare dim) :=
    storeShape_readFold input (declare dim) st h
  have hnd : (storeKeys st).Nodup := by
    rw [storeKeys_eq_of_shape hsh]
    exact hnd0
  have hall : allValidValues st :=
    allValid_readFold input (declare dim) st hnd0 hall0 h
  have htargets : ∀ a ∈ echoAssignments st, ∃ e ∈ declare dim,
      e.path = a.path ∧ e.name = a.key ∧
      e.pattern.validate a.value = true := by
    intro a ha
    obtain ⟨e1, he1, rfl⟩ := List.mem_map.mp ha
    obtain ⟨e0, he0, hsh0⟩ := mem_of_shape hsh.symm he1
    exact ⟨e0, he0, path_of_shape hsh0, name_of_shape hsh0, by
      rw [pattern_of_shape hsh0]
      exact hall e1 he1⟩
  have h1 : readStore dim (echoAssignments st) =
      .ok (applyAll (declare dim) (echoAssignments st)) :=
    readFold_ok_of_targets (echoAssignments st) (declare dim) hnd0 htargets
  have h2 : applyAll (declare dim) (echoAssignments st) = st := by
    rw [applyAll_eq_map]
    exact map_applyToEntry_echo hsh.symm hnd
  refine ⟨by rw [h1, h2], ?_⟩
  unfold read
  rw [h1, h2, h]

/-- Witness for read_echo_round_trip at a concrete overlay input. -/
theorem read_echo_round_trip_witness :
    readStore 2 (echoAssignments sampleStore) = .ok sampleStore ∧
      read 2 (echoAssignments sampleStore) = read 2 sampleInput :=
  read_echo_round_trip 2 sampleInput sampleStore
    (Or.inr (Or.inl rfl)) (by decide)

/-- Claim C5 (counterexample): the pattern declared for
initial_values.function_name is a list of selections, so the
comma-separated text "parsed, parsed" is accepted, not rejected. -/
theorem function_name_accepts_list :
    findPattern (declare 2) ["initial_values"] "function_name" =
      some function_name_pattern ∧
    function_name_pattern.validate "parsed, parsed" = true := by decide

/-- Claim C5 (amended): the pattern declared for
initial_values.function_name accepts a text iff every comma-separated
element, after trimming, equals exactly "parsed" or
"interpolate_old_field" (case-sensitive); a single keyword is the
one-element case, and "parsed, parsed" is accepted. -/
theorem function_name_pattern_characterisation :
    findPattern (declare 2) ["initial_values"] "function_name" =
      some function_name_pattern ∧
    ∀ s : String, function_name_pattern.validate s = true ↔
      ∀ t ∈ splitComma s.data,
        trimChars t = "parsed".data ∨
        trimChars t = "interpolate_old_field".data := by
  refine ⟨by decide, ?_⟩
  intro s
  have hsel : ∀ t : List Char,
      validateChars (.Selection ["parsed", "interpolate_old_field"]) t
          = true ↔
        (trimChars t = "parsed".data ∨
         trimChars t = "interpolate_old_field".data) := by
    intro t
    simp [validateChars]
  have hlist : function_name_pattern.validate s =
      (splitComma s.data).all
        (fun t => validateChars
          (.Selection ["parsed", "interpolate_old_field"]) t) := rfl
  rw [hlist, List.all_eq_true]
  constructor
  · intro h t ht
    exact (hsel t).mp (h t ht)
  · intro h t ht
    exact (hsel t).mpr (h t ht)

/-- Claim C7: overlaying geometry.sizes with "0.5, 2.5, 3.0" binds the
exact sequence [0.5, 2.5, 3.0] (length 3, order preserved), and any
value accepted by a ListOf pattern over reals or integers is parsed
successfully by the binder's get_vector, which splits on commas
exactly like the validator. -/
theorem list_values_bind_after_validation :
    ((read 2 [⟨["geometry"], "sizes", "0.5, 2.5, 3.0"⟩]).map
      (Option.map (fun p => p.geometry.sizes)) =
        .ok (some [mkRat 1 2, mkRat 5 2, 3])) ∧
    (∀ (st : List Entry) (p : List String) (k : String)
        (lo hi : Option ℚ) (s : String),
      getValue st p k = some s →
      (Pattern.ListOf (.RealRange lo hi)).validate s = true →
      ∃ xs, get_vector_double st p k = some xs) ∧
    (∀ (st : List Entry) (p : List String) (k : String)
        (lo hi : Option Int) (s : String),
      getValue st p k = some s →
      (Pattern.ListOf (.IntegerRange lo hi)).validate s = true →
      ∃ xs, get_vector_uint st p k = some xs) := by
  refine ⟨by decide, ?_, ?_⟩
  · intro st p k lo hi s hget hval
    have hall : ∀ t ∈ splitComma s.data,
        validateChars (.RealRange lo hi) t = true := by
      have : ((splitComma s.data).all
          (fun t => validateChars (.RealRange lo hi) t)) = true := hval
      exact List.all_eq_true.mp this
    obtain ⟨xs, hxs⟩ := mapOption_isSome parseRealChars (splitComma s.data)
      (fun t ht => parseReal_isSome_of_validate (hall t ht))
    refine ⟨xs, ?_⟩
    unfold get_vector_double
    rw [hget]
    simpa using hxs
  · intro st p k lo hi s hget hval
    have hall : ∀ t ∈ splitComma s.data,
        validateChars (.IntegerRange lo hi) t = true := by
      have : ((splitComma s.data).all
          (fun t => validateChars (.IntegerRange lo hi) t)) = true := hval
      exact List.all_eq_true.mp this
    obtain ⟨ys, hys⟩ := mapOption_isSome parseIntChars (splitComma s.data)
      (fun t ht => parseInt_isSome_of_validate (hall t ht))
    refine ⟨ys.map uintOfInt, ?_⟩
    unfold get_vector_uint
    rw [hget]
    simp [hys]

/-- Witness for list_values_bind_after_validation: the default sizes
value of the dimension-2 schema parses through get_vector after
validation. -/
theorem list_values_bind_after_validation_witness :
    ∃ xs, get_vector_double (declare 2) ["geometry"] "sizes" = some xs :=
  list_values_bind_after_validation.2.1 (declare 2) ["geometry"] "sizes"
    (some 0) none "0., 1." (by decide) (by decide)

/-- Claim C9: on every call to read whose overlay phase succeeds, the
echo of the fully resolved configuration is written before any record
field is extracted from the store: the event trace starts with the
echo write, followed only by the extraction events. -/
theorem echo_written_before_extraction (dim : Nat)
    (input : List Assignment) (st : List Entry)
    (h : readStore dim input = .ok st) :
    readTrace dim input = Event.echoWrite :: extractionOrder ∧
      Event.echoWrite ∉ extractionOrder := by
  refine ⟨?_, by decide⟩
  unfold readTrace
  rw [h]

/-- Witness for echo_written_before_extraction with the empty input. -/
theorem echo_written_before_extraction_witness :
    readTrace 2 [] = Event.echoWrite :: extractionOrder ∧
      Event.echoWrite ∉ extractionOrder :=
  echo_written_before_extraction 2 [] (declare 2) rfl

end Parameters
end Peclet
